import Mathlib

/-!
# Shallow embedding of the realtime-transcription-editor reconciliation engine

This file embeds the client-side reconciliation and synchronization logic of
the realtime transcription editor (`src/frontend/src/App.jsx`, plus the
auto-append variant in `src/unnamed/part_001`) and proves/refutes the frozen
claims about it.

Modelling conventions:
* JS strings are Lean `String`s (`slice`/`length` act on characters; all
  strings exercised here are ASCII, where this agrees with UTF-16 units).
* JS word timestamps (floats, used only in order comparisons) are modelled
  as `ℚ`; all comparisons appearing in the claims are exact in both.
* The JS segments object (string keys, insertion-ordered for non-index keys)
  is an insertion-ordered association list.
* `Array.prototype.sort` with the numeric comparator is modelled by a stable
  insertion sort; a comparator result of `NaN` is treated as `0` (elements
  compare equal), matching the ECMAScript treatment of non-numeric
  comparator results.
-/

/-- The whitespace class used by the JS regex `\s` and `String.trim`,
restricted to the ASCII range (the only characters arising here). -/
def jsWsChar (c : Char) : Bool :=
  c = ' ' || c = '\t' || c = '\n' || c = '\r' || c = '\x0b' || c = '\x0c'

/-- The punctuation class of the normalization regex `/\s+([.,!?;:])/g`
in `buildCommittedTextFromSegments`. -/
def punctChar (c : Char) : Bool :=
  c = '.' || c = ',' || c = '!' || c = '?' || c = ';' || c = ':'

/-- Leading decimal digits of a character list, `none` when there are none
(JS `parseInt` yields `NaN` in that case). -/
def parseDigits (cs : List Char) : Option Nat :=
  let ds := cs.takeWhile Char.isDigit
  if ds.isEmpty then none
  else some (ds.foldl (fun acc c => 10 * acc + (c.toNat - '0'.toNat)) 0)

/-- JS `parseInt(s, 10)`: skip leading whitespace, optional sign, then the
leading run of decimal digits; `none` models `NaN`. -/
def parseIntJS (s : String) : Option Int :=
  match s.data.dropWhile jsWsChar with
  | '-' :: rest => (parseDigits rest).map (fun n => -(n : Int))
  | '+' :: rest => (parseDigits rest).map (fun n => (n : Int))
  | cs => (parseDigits cs).map (fun n => (n : Int))

/-- Split a character list at every occurrence of `sep`, JS
`String.prototype.split` style: `"" ↦ [""]`, separators at the ends and
doubled separators produce empty fields. -/
def splitChar (sep : Char) : List Char → List (List Char)
  | [] => [[]]
  | c :: rest =>
    match splitChar sep rest with
    | [] => if c = sep then [[], []] else [[c]]
    | h :: t => if c = sep then [] :: h :: t else (c :: h) :: t

/-- JS `id.split("_")`. -/
def splitUS (id : String) : List String :=
  (splitChar '_' id.data).map (fun cs => ⟨cs⟩)

/-- Sort key of a segment id in `buildCommittedTextFromSegments`:
`parseInt(id.split("_").pop() || "0", 10)`. -/
def segKeyPop (id : String) : Option Int :=
  let last := (splitUS id).getLastD ""
  parseIntJS (if last = "" then "0" else last)

/-- Sort key of a segment id in `orderedWords`:
`parseInt(id.split("_")[1] || "0", 10)`. -/
def segKeyIdx1 (id : String) : Option Int :=
  let p := ((splitUS id).get? 1).getD ""
  parseIntJS (if p = "" then "0" else p)

/-- `keyLE a b` holds when, under the JS comparator `numA - numB`, element
`a` may stay before `b`: the comparator is `≤ 0`, or is `NaN` (modelled by
`none`), which JS sorting treats as `0`. -/
def keyLE : Option Int → Option Int → Bool
  | some a, some b => a ≤ b
  | _, _ => true

/-- Stable insertion of `x` (originally earlier in the array) into an
already-sorted tail: `x` is placed before the first element it compares
`le`-to, hence before any element with an equal key. -/
def insSorted (le : α → α → Bool) (x : α) : List α → List α
  | [] => [x]
  | y :: ys => if le x y then x :: y :: ys else y :: insSorted le x ys

/-- Stable sort modelling `Array.prototype.sort` for the comparators used
in the source. -/
def sortJS (le : α → α → Bool) : List α → List α
  | [] => []
  | x :: xs => insSorted le x (sortJS le xs)

/-- Left-to-right scan implementing `/\s+([.,!?;:])/g → "$1"`: `run` buffers
the whitespace run read so far but not yet emitted. A punctuation character
discards the buffered run (the regex consumed `\s+` together with the
punctuation and re-emitted only the punctuation); any other character
flushes the run unchanged. -/
def normAux (run : List Char) : List Char → List Char
  | [] => run
  | c :: rest =>
    if jsWsChar c then normAux (run ++ [c]) rest
    else if punctChar c then c :: normAux [] rest
    else run ++ c :: normAux [] rest

/-- The replacement `/\s+([.,!?;:])/g → "$1"` on a character list: every
maximal whitespace run immediately followed by one of `.,!?;:` is deleted. -/
def normChars (cs : List Char) : List Char := normAux [] cs

/-- `text.replace(/\s+([.,!?;:])/g, "$1")`. -/
def normPunct (s : String) : String := ⟨normChars s.data⟩

/-- JS `String.prototype.trim`. -/
def trimJS (s : String) : String :=
  ⟨((s.data.dropWhile jsWsChar).reverse.dropWhile jsWsChar).reverse⟩

/-- JS `s.slice(n)` for `0 ≤ n`. -/
def sliceFrom (s : String) (n : Nat) : String := ⟨s.data.drop n⟩

/-- JS `Array.prototype.join(sep)` over strings. -/
def joinSep (sep : String) : List String → String
  | [] => ""
  | [a] => a
  | a :: rest => a ++ sep ++ joinSep sep rest

/-- JS `Array.prototype.join(" ")` over strings. -/
def joinSpace (l : List String) : String := joinSep " " l

/-- JS `s.endsWith(" ")`: the last character is a space. -/
def endsWithSpace (s : String) : Bool := s.data.getLast? = some ' '

/-- The accumulation step `text += (text ? " " : "") + segText` of
`buildCommittedTextFromSegments`. -/
def accumSeg (text segText : String) : String :=
  text ++ (if text = "" then "" else " ") ++ segText

/-- A word as delivered by a `transcript_patch` event:
`{wid, text, t0, t1}` (no `isFinal`/`edited` field on the wire). -/
structure EventWord where
  wid : Nat
  text : String
  t0 : Option ℚ
  t1 : Option ℚ
deriving DecidableEq, Repr

/-- A word stored in the client's flat `words` state: an event word plus the
`isFinal` flag stamped by the merge and the (UI-originated) `edited` flag. -/
structure Word where
  wid : Nat
  text : String
  t0 : Option ℚ
  t1 : Option ℚ
  isFinal : Bool
  edited : Bool
deriving DecidableEq, Repr

/-- `{ ...w, isFinal: f }` on an event word (`edited` is absent on the wire,
hence falsy). -/
def toWord (w : EventWord) (f : Bool) : Word :=
  ⟨w.wid, w.text, w.t0, w.t1, f, false⟩

/-- One entry of the segments map: `{ words: data.words, isFinal: data.isFinal }`. -/
structure SegEntry where
  words : List EventWord
  isFinal : Bool
deriving DecidableEq, Repr

/-- The segments object, as an insertion-ordered association list
(string keys of the form `seg_<n>` keep JS object insertion order). -/
abbrev Segments := List (String × SegEntry)

/-- `{ ...prev, [k]: v }`: an existing key is updated in place, a new key is
appended at the end. -/
def setSeg (m : Segments) (k : String) (v : SegEntry) : Segments :=
  if m.any (fun p => p.1 = k) then
    m.map (fun p => if p.1 = k then (k, v) else p)
  else m ++ [(k, v)]

/-- `segments[segId]` (first entry with the key). -/
def segLookup : Segments → String → Option SegEntry
  | [], _ => none
  | p :: rest, k => if p.1 = k then some p.2 else segLookup rest k

/-- A leaf `{ text }` node of the Slate document. -/
structure SlateChild where
  text : String
deriving DecidableEq, Repr

/-- A paragraph node of the Slate document. -/
structure SlateNode where
  children : List SlateChild
deriving DecidableEq, Repr

/-- The editable Document: the Slate editor value. -/
abbrev SlateValue := List SlateNode

/-- `textToSlateValue`: one paragraph with one text child. -/
def textToSlateValue (text : String) : SlateValue :=
  [⟨[⟨text⟩]⟩]

/-- `slateToPlainText`: children joined by `""`, nodes joined by `"\n"`. -/
def slateToPlainText (value : SlateValue) : String :=
  joinSep "\n"
    (value.map (fun node => joinSep "" (node.children.map (fun c => c.text))))

/-- The words merge of the `transcript_patch` handler (`setWords` updater). -/
def mergeWords (prevWords : List Word) (ws : List EventWord) (isFinal : Bool) :
    List Word :=
  if isFinal then
    let existingWids := ((prevWords.filter (fun w => w.isFinal)).map (fun w => w.wid))
    let newWords := (ws.filter (fun w => !existingWids.contains w.wid)).map
      (fun w => toWord w true)
    let committed := prevWords.filter (fun w => w.isFinal || w.edited)
    committed ++ newWords
  else
    let committed := prevWords.filter (fun w => w.isFinal || w.edited)
    let interimWords := ws.map (fun w => toWord w false)
    committed ++ interimWords

/-- `buildCommittedTextFromSegments` body: fold one segment id into the
accumulated text (`if (seg && seg.isFinal && seg.words)`; a JS array is
always truthy, so only the `isFinal` test gates). -/
def rawStep (m : Segments) (text : String) (segId : String) : String :=
  match segLookup m segId with
  | some seg =>
    if seg.isFinal then accumSeg text (joinSpace (seg.words.map (fun w => w.text)))
    else text
  | none => text

/-- The raw (pre-normalization) committed text over a given id order. -/
def rawCommitted (m : Segments) (ids : List String) : String :=
  ids.foldl (rawStep m) ""

/-- Comparator of `buildCommittedTextFromSegments`' key sort. -/
def segLEPop (a b : String) : Bool := keyLE (segKeyPop a) (segKeyPop b)

/-- `buildCommittedTextFromSegments`: sort the segment ids by numeric
suffix, concatenate every final segment's space-joined word text, then
normalize whitespace before punctuation. -/
def buildCommittedTextFromSegments (m : Segments) : String :=
  normPunct (rawCommitted m (sortJS segLEPop (m.map (fun p => p.1))))

/-- The client state of `App.jsx` relevant to the reconciliation engine. -/
structure ClientState where
  activeSession : Option String
  partialText : String
  finalText : String
  words : List Word
  segments : Segments
  committedFinalText : String
  finalEditorValue : SlateValue
  isFinalDirty : Bool
  hasNewFinalUpdate : Bool
  lastAppliedServerFinalText : String
deriving DecidableEq, Repr

/-- Inbound transcription events (`transcript_partial`, `transcript_final`,
`transcript_patch`). -/
inductive TEvent where
  | partialEv (sessionId : String) (text : String)
  | finalEv (sessionId : String) (text : String)
  | patchEv (sessionId : String) (segmentId : String) (words : List EventWord)
      (isFinal : Bool)
deriving DecidableEq, Repr

/-- The session id carried by an event. -/
def TEvent.sessionId : TEvent → String
  | .partialEv sid _ => sid
  | .finalEv sid _ => sid
  | .patchEv sid _ _ _ => sid

/-- The socket handlers of `App.jsx`: each first discards the event when
`data.sessionId !== sessionIdRef.current`, then applies its state updates. -/
def handleEvent (s : ClientState) (e : TEvent) : ClientState :=
  match e with
  | .partialEv sid text =>
    if some sid ≠ s.activeSession then s
    else { s with partialText := text }
  | .finalEv sid text =>
    if some sid ≠ s.activeSession then s
    else
      { s with
        finalText := text
        partialText := ""
        finalEditorValue :=
          if !s.isFinalDirty then textToSlateValue text else s.finalEditorValue
        hasNewFinalUpdate := if !s.isFinalDirty then s.hasNewFinalUpdate else true }
  | .patchEv sid segId ws isFinal =>
    if some sid ≠ s.activeSession then s
    else
      { s with
        segments := setSeg s.segments segId ⟨ws, isFinal⟩
        words := mergeWords s.words ws isFinal }

/-- The `committedFinalText` effect of `App.jsx` (lines 217–249): recompute
the committed text; when it changed, store it and either sync the editor
(clean) or raise the pending-update flag (dirty and differing from the last
applied server text). -/
def commitEffect (s : ClientState) : ClientState :=
  let newCommitted := buildCommittedTextFromSegments s.segments
  if newCommitted ≠ s.committedFinalText then
    let s' := { s with committedFinalText := newCommitted }
    if !s.isFinalDirty && newCommitted ≠ "" then
      { s' with
        finalEditorValue := textToSlateValue newCommitted
        lastAppliedServerFinalText := newCommitted }
    else if s.isFinalDirty && newCommitted ≠ s.lastAppliedServerFinalText then
      { s' with hasNewFinalUpdate := true }
    else s'
  else s

/-- Delivery of one event: the socket handler runs, then React re-renders
and the `committedFinalText` effect fires. -/
def processEvent (s : ClientState) (e : TEvent) : ClientState :=
  commitEffect (handleEvent s e)

/-- `handleAppendAsr`: append the trimmed delta (new committed text past the
last applied server text) to the editor's current plain text, separated by a
space unless the editor text already ends in one; acknowledge the update and
stay dirty. -/
def handleAppendAsr (s : ClientState) : ClientState :=
  let delta := trimJS (sliceFrom s.committedFinalText s.lastAppliedServerFinalText.length)
  let s' :=
    if delta ≠ "" then
      let currentEditorText := slateToPlainText s.finalEditorValue
      let newText :=
        currentEditorText ++ (if endsWithSpace currentEditorText then "" else " ") ++ delta
      { s with finalEditorValue := textToSlateValue newText }
    else s
  { s' with
    lastAppliedServerFinalText := s.committedFinalText
    hasNewFinalUpdate := false }

/-- `handleReplaceWithAsr`: replace the editor by the committed text and
leave dirty mode. -/
def handleReplaceWithAsr (s : ClientState) : ClientState :=
  { s with
    finalEditorValue := textToSlateValue s.committedFinalText
    lastAppliedServerFinalText := s.committedFinalText
    isFinalDirty := false
    hasNewFinalUpdate := false }

/-- `handleIgnoreAsr`: dismiss the banner without touching the editor. -/
def handleIgnoreAsr (s : ClientState) : ClientState :=
  { s with
    lastAppliedServerFinalText := s.committedFinalText
    hasNewFinalUpdate := false }

/-- The `committedFinalText` effect of the auto-append variant
(`src/unnamed/part_001`, lines 256–301): when the committed text grows, the
delta is always appended to the current editor content, user edits or not,
and no pending flag is raised. -/
def commitEffectAutoAppend (s : ClientState) : ClientState :=
  let newCommitted := buildCommittedTextFromSegments s.segments
  if newCommitted ≠ s.committedFinalText then
    let oldCommitted := s.committedFinalText
    let s' := { s with committedFinalText := newCommitted }
    if oldCommitted.length < newCommitted.length then
      let delta := trimJS (sliceFrom newCommitted oldCommitted.length)
      if delta ≠ "" then
        let currentEditorText := slateToPlainText s.finalEditorValue
        let separator :=
          if currentEditorText ≠ "" && !endsWithSpace currentEditorText then " " else ""
        { s' with
          finalEditorValue := textToSlateValue (currentEditorText ++ separator ++ delta) }
      else s'
    else if oldCommitted = "" && newCommitted ≠ "" then
      { s' with finalEditorValue := textToSlateValue newCommitted }
    else s'
  else s

/-- Comparator of `orderedWords`' entry sort. -/
def segLEIdx1 (a b : String) : Bool := keyLE (segKeyIdx1 a) (segKeyIdx1 b)

/-- `orderedWords`: segment entries sorted by the numeric part after the
first underscore, flattened, keeping only words with both timestamps. -/
def orderedWords (m : Segments) : List EventWord :=
  ((sortJS (fun p q => segLEIdx1 p.1 q.1) m).flatMap (fun p => p.2.words)).filter
    (fun w => w.t0.isSome && w.t1.isSome)

/-- `findActive(t)` of the playback-sync effect: the first word whose
half-open interval `[t0, t1)` contains `t` (a `null` bound coerces to `0`
under JS comparison, mirrored by `getD 0`; `orderedWords` never produces
one). -/
def findActive (ws : List EventWord) (t : ℚ) : Option EventWord :=
  ws.find? (fun w => decide (w.t0.getD 0 ≤ t) && decide (t < w.t1.getD 0))

/-- One playback tick at time `t`: `setActiveWid(w ? w.wid : null)`. -/
def tickActiveWid (m : Segments) (t : ℚ) : Option Nat :=
  (findActive (orderedWords m) t).map (fun w => w.wid)

/-- A word text free of surprises: nonempty and without whitespace
characters (what a speech recognizer actually emits). -/
def GoodWord (w : EventWord) : Prop :=
  w.text ≠ "" ∧ ∀ c ∈ w.text.data, jsWsChar c = false

/-- A segment entry whose word list is nonempty and all of whose word texts
are clean. -/
def GoodSeg (e : SegEntry) : Prop :=
  e.words ≠ [] ∧ ∀ w ∈ e.words, GoodWord w

instance : DecidablePred GoodWord := fun w => by
  unfold GoodWord; infer_instance

instance : DecidablePred GoodSeg := fun e => by
  unfold GoodSeg; infer_instance

/-- A string that is empty or ends in a non-whitespace character. -/
def EndsNonWs (s : String) : Prop :=
  ∀ c, s.data.getLast? = some c → jsWsChar c = false

/-- Concrete dirty-state scenario of the spec's dirty-preservation property:
the Document reads `"Hello world"`, the user has edited (dirty), the last
synced server text is `"Hello world"`, and the pending CommittedText
`"Hello world, friend"` has arrived. -/
def dirtyHelloState : ClientState where
  activeSession := some "sess_1"
  partialText := ""
  finalText := ""
  words := []
  segments := []
  committedFinalText := "Hello world, friend"
  finalEditorValue := textToSlateValue "Hello world"
  isFinalDirty := true
  hasNewFinalUpdate := true
  lastAppliedServerFinalText := "Hello world"

/-- Concrete dirty state for the auto-append variant: the user has edited
the Document to `"edited"`, and a new final segment `"hello"` just arrived
(committed text not yet recomputed). -/
def autoAppendDirtyState : ClientState where
  activeSession := some "sess_1"
  partialText := ""
  finalText := ""
  words := []
  segments := setSeg [] "seg_0" ⟨[⟨0, "hello", none, none⟩], true⟩
  committedFinalText := ""
  finalEditorValue := textToSlateValue "edited"
  isFinalDirty := true
  hasNewFinalUpdate := false
  lastAppliedServerFinalText := ""

/-- Concrete state holding one already-final segment `seg_0` with the single
word `"a"` (wid 0), in sync. -/
def finalSegState : ClientState where
  activeSession := some "sess_1"
  partialText := ""
  finalText := ""
  words := [⟨0, "a", none, none, true, false⟩]
  segments := setSeg [] "seg_0" ⟨[⟨0, "a", none, none⟩], true⟩
  committedFinalText := "a"
  finalEditorValue := textToSlateValue "a"
  isFinalDirty := false
  hasNewFinalUpdate := false
  lastAppliedServerFinalText := "a"

/-- `finalSegState` after the user edits (dirty) and a second final segment
`seg_1` (word `"b"`, wid 1) has arrived but has not yet been folded into
`committedFinalText`. -/
def dirtySecondSegState : ClientState :=
  { finalSegState with
      isFinalDirty := true
      segments := setSeg finalSegState.segments "seg_1" ⟨[⟨1, "b", none, none⟩], true⟩ }

/-- `finalSegState` with one extra user-edited (non-final) word in the flat
word list. -/
def editedWordState : ClientState :=
  { finalSegState with words := [⟨7, "fixed", none, none, false, true⟩] }

/-! ## Helper lemmas about the commit effect and event handling -/

theorem commitEffect_segments (s : ClientState) :
    (commitEffect s).segments = s.segments := by
  simp only [commitEffect]
  split <;> [split <;> [rfl; split <;> rfl]; rfl]

theorem commitEffect_words (s : ClientState) :
    (commitEffect s).words = s.words := by
  simp only [commitEffect]
  split <;> [split <;> [rfl; split <;> rfl]; rfl]

theorem commitEffect_activeSession (s : ClientState) :
    (commitEffect s).activeSession = s.activeSession := by
  simp only [commitEffect]
  split <;> [split <;> [rfl; split <;> rfl]; rfl]

theorem commitEffect_isFinalDirty (s : ClientState) :
    (commitEffect s).isFinalDirty = s.isFinalDirty := by
  simp only [commitEffect]
  split <;> [split <;> [rfl; split <;> rfl]; rfl]

theorem commitEffect_committed (s : ClientState) :
    (commitEffect s).committedFinalText = buildCommittedTextFromSegments s.segments := by
  simp only [commitEffect]
  split
  · split <;> [rfl; split <;> rfl]
  · next h => exact (not_ne_iff.mp h).symm

theorem commitEffect_stable (s : ClientState)
    (h : s.committedFinalText = buildCommittedTextFromSegments s.segments) :
    commitEffect s = s := by
  simp only [commitEffect]
  rw [if_neg]
  simp [h]

theorem commitEffect_idem (s : ClientState) :
    commitEffect (commitEffect s) = commitEffect s :=
  commitEffect_stable _ (by rw [commitEffect_committed, commitEffect_segments])

/-! ## C5: CommittedText recomputation is pure and idempotent -/

/-- C5. `buildCommittedTextFromSegments` is a pure function of the segments
map — recomputing it on the same unchanged map yields the identical string —
and, at the state level, running the recomputation effect a second time on
an unchanged state changes nothing. -/
theorem build_committed_pure_idem (m : Segments) (s : ClientState) :
    buildCommittedTextFromSegments m = buildCommittedTextFromSegments m ∧
    commitEffect (commitEffect s) = commitEffect s :=
  ⟨rfl, commitEffect_idem s⟩

/-! ## C4: half-open interval playback lookup -/

/-- C4. With words `[{id 1, t0 0.0, t1 0.5}, {id 2, t0 0.5, t1 1.2}]`,
`findActive` (via the full `orderedWords` pipeline) selects word 1 at
`t = 0.3`, word 2 at `t = 0.5` (start inclusive, end exclusive), and no word
at `t = 2.0` (active word id cleared to `none`). -/
theorem playback_halfopen_lookup :
    (findActive (orderedWords (setSeg [] "seg_0"
        ⟨[⟨1, "w1", some (mkRat 0 1), some (mkRat 1 2)⟩,
          ⟨2, "w2", some (mkRat 1 2), some (mkRat 6 5)⟩], true⟩))
        (mkRat 3 10)).map (fun w => w.wid) = some 1 ∧
    (findActive (orderedWords (setSeg [] "seg_0"
        ⟨[⟨1, "w1", some (mkRat 0 1), some (mkRat 1 2)⟩,
          ⟨2, "w2", some (mkRat 1 2), some (mkRat 6 5)⟩], true⟩))
        (mkRat 1 2)).map (fun w => w.wid) = some 2 ∧
    tickActiveWid (setSeg [] "seg_0"
        ⟨[⟨1, "w1", some (mkRat 0 1), some (mkRat 1 2)⟩,
          ⟨2, "w2", some (mkRat 1 2), some (mkRat 6 5)⟩], true⟩)
        (mkRat 2 1) = none := by decide

/-! ## C9: session isolation -/

/-- C9. An inbound transcription event whose session id differs from the
active session produces no state change: every handler discards it before
touching any state, and on an unchanged (recomputation-stable) state the
commit effect is a no-op. -/
theorem session_mismatch_no_change (s : ClientState) (e : TEvent)
    (hstable : s.committedFinalText = buildCommittedTextFromSegments s.segments)
    (hmismatch : some e.sessionId ≠ s.activeSession) :
    processEvent s e = s := by
  have hh : handleEvent s e = s := by
    cases e <;> simp only [handleEvent, TEvent.sessionId] at hmismatch ⊢ <;>
      rw [if_pos hmismatch]
  unfold processEvent
  rw [hh, commitEffect_stable s hstable]

/-- Witness for C9 at a concrete state and event. -/
theorem session_mismatch_no_change_witness :
    (finalSegState.committedFinalText
        = buildCommittedTextFromSegments finalSegState.segments ∧
      some (TEvent.partialEv "sess_OTHER" "hi").sessionId ≠ finalSegState.activeSession) ∧
    processEvent finalSegState (TEvent.partialEv "sess_OTHER" "hi") = finalSegState :=
  ⟨⟨by decide, by decide⟩,
    session_mismatch_no_change finalSegState (TEvent.partialEv "sess_OTHER" "hi")
      (by decide) (by decide)⟩

/-! ## C10: edited words are retained by every patch merge -/

/-- C10. Any word currently flagged `edited = true` in the flat word list
survives processing of any `transcript_patch` event, interim or final: both
merge branches keep every word satisfying `isFinal || edited`. -/
theorem edited_word_retained (s : ClientState) (sid segId : String)
    (ws : List EventWord) (isF : Bool) (w : Word)
    (hw : w ∈ s.words) (hedit : w.edited = true) :
    w ∈ (processEvent s (TEvent.patchEv sid segId ws isF)).words := by
  unfold processEvent
  rw [commitEffect_words]
  simp only [handleEvent]
  split
  · exact hw
  · show w ∈ mergeWords s.words ws isF
    unfold mergeWords
    have hmem : w ∈ s.words.filter (fun w => w.isFinal || w.edited) :=
      List.mem_filter.mpr ⟨hw, by rw [hedit, Bool.or_true]⟩
    split
    · exact List.mem_append_left _ hmem
    · exact List.mem_append_left _ hmem

/-- Witness for C10: an edited, non-final word survives a final patch that
does not mention it. -/
theorem edited_word_retained_witness :
    ((⟨7, "fixed", none, none, false, true⟩ : Word) ∈ editedWordState.words ∧
      (⟨7, "fixed", none, none, false, true⟩ : Word).edited = true) ∧
    (⟨7, "fixed", none, none, false, true⟩ : Word) ∈
      (processEvent editedWordState
        (TEvent.patchEv "sess_1" "seg_1" [⟨8, "new", none, none⟩] true)).words :=
  ⟨⟨by decide, by decide⟩,
    edited_word_retained editedWordState "sess_1" "seg_1" [⟨8, "new", none, none⟩] true
      ⟨7, "fixed", none, none, false, true⟩ (by decide) (by decide)⟩

/-! ## C3: no auto-mutation of the Document while dirty -/

/-- C3 (amended: the `App.jsx` engine). While the dirty flag is set, a newly
derived CommittedText that differs from both the current committed text and
the last applied server text leaves the editor value untouched; the engine
instead raises the pending-update flag and records the new text as
`committedFinalText`, the pending target used by the resolution handlers. -/
theorem dirty_no_automutate (s : ClientState)
    (hdirty : s.isFinalDirty = true)
    (hchanged : buildCommittedTextFromSegments s.segments ≠ s.committedFinalText)
    (hdiff : buildCommittedTextFromSegments s.segments ≠ s.lastAppliedServerFinalText) :
    (commitEffect s).finalEditorValue = s.finalEditorValue ∧
    (commitEffect s).hasNewFinalUpdate = true ∧
    (commitEffect s).committedFinalText = buildCommittedTextFromSegments s.segments := by
  simp only [commitEffect]
  rw [if_pos hchanged]
  rw [if_neg (by simp [hdirty]), if_pos (by simp [hdirty, hdiff])]
  exact ⟨rfl, rfl, rfl⟩

/-- Counterexample for C3 as stated over the whole repository: the
auto-append engine variant (`src/unnamed/part_001`) does mutate the Document
while the dirty flag is set — it appends the freshly transcribed delta to
the edited content — and never raises the pending-update flag. -/
theorem dirty_automutate_autoappend_cex :
    (commitEffectAutoAppend autoAppendDirtyState).finalEditorValue
        ≠ autoAppendDirtyState.finalEditorValue ∧
    slateToPlainText (commitEffectAutoAppend autoAppendDirtyState).finalEditorValue
        = "edited hello" ∧
    (commitEffectAutoAppend autoAppendDirtyState).hasNewFinalUpdate = false ∧
    autoAppendDirtyState.isFinalDirty = true ∧
    buildCommittedTextFromSegments autoAppendDirtyState.segments
        ≠ autoAppendDirtyState.lastAppliedServerFinalText := by decide

/-- Witness for C3 (amended) at a concrete dirty state. -/
theorem dirty_no_automutate_witness :
    (dirtySecondSegState.isFinalDirty = true ∧
      buildCommittedTextFromSegments dirtySecondSegState.segments
          ≠ dirtySecondSegState.committedFinalText ∧
      buildCommittedTextFromSegments dirtySecondSegState.segments
          ≠ dirtySecondSegState.lastAppliedServerFinalText) ∧
    ((commitEffect dirtySecondSegState).finalEditorValue
        = dirtySecondSegState.finalEditorValue ∧
      (commitEffect dirtySecondSegState).hasNewFinalUpdate = true) :=
  ⟨⟨by decide, by decide, by decide⟩,
    (dirty_no_automutate dirtySecondSegState (by decide) (by decide) (by decide)).1,
    (dirty_no_automutate dirtySecondSegState (by decide) (by decide) (by decide)).2.1⟩

/-! ## C1: dirty-resolution flow (Append / Replace) -/

/-- Counterexample for C1 as stated: in the spec's scenario (Document
`"Hello world"`, dirty, last synced `"Hello world"`, pending
`"Hello world, friend"`), `handleAppendAsr` joins the trimmed delta
`", friend"` with a separating space, producing `"Hello world , friend"` —
not the claimed `"Hello world, friend"`. -/
theorem append_asr_extra_space_cex :
    slateToPlainText (handleAppendAsr dirtyHelloState).finalEditorValue
        = "Hello world , friend" ∧
    slateToPlainText (handleAppendAsr dirtyHelloState).finalEditorValue
        ≠ "Hello world, friend" := by decide

/-- C1 (amended). In the same scenario, Append yields
`"Hello world , friend"` (the trimmed delta `", friend"` appended after a
separating space) and stays in dirty mode with the pending text
acknowledged, while Replace yields exactly the pending server text
`"Hello world, friend"`, discarding prior edits and clearing the dirty
flag. -/
theorem dirty_resolution_append_replace :
    slateToPlainText (handleAppendAsr dirtyHelloState).finalEditorValue
        = "Hello world , friend" ∧
    (handleAppendAsr dirtyHelloState).isFinalDirty = true ∧
    (handleAppendAsr dirtyHelloState).lastAppliedServerFinalText
        = "Hello world, friend" ∧
    (handleAppendAsr dirtyHelloState).hasNewFinalUpdate = false ∧
    (handleReplaceWithAsr dirtyHelloState).finalEditorValue
        = textToSlateValue "Hello world, friend" ∧
    slateToPlainText (handleReplaceWithAsr dirtyHelloState).finalEditorValue
        = "Hello world, friend" ∧
    (handleReplaceWithAsr dirtyHelloState).isFinalDirty = false := by decide

/-! ## C2: patches for already-final segments -/

theorem segLookup_map_update (m : Segments) (k : String) (v : SegEntry)
    (h : m.any (fun p => p.1 = k) = true) :
    segLookup (m.map (fun p => if p.1 = k then (k, v) else p)) k = some v := by
  induction m with
  | nil => simp at h
  | cons p rest ih =>
    by_cases hp : p.1 = k
    · simp [segLookup, hp]
    · simp only [List.any_cons, Bool.or_eq_true, decide_eq_true_eq] at h
      rcases h with h | h
    
      · exact absurd h hp
      · simpa [segLookup, hp] using ih h

theorem segLookup_append_last (m : Segments) (k : String) (v : SegEntry)
    (h : ∀ p ∈ m, p.1 ≠ k) :
    segLookup (m ++ [(k, v)]) k = some v := by
  induction m with
  | nil => simp [segLookup]
  | cons p rest ih =>
    have hp : p.1 ≠ k := h p (List.mem_cons_self p rest)
    simpa [segLookup, hp] using ih (fun q hq => h q (List.mem_cons_of_mem p hq))

theorem segLookup_setSeg_self (m : Segments) (k : String) (v : SegEntry) :
    segLookup (setSeg m k v) k = some v := by
  unfold setSeg
  split
  · next h => exact segLookup_map_update m k v h
  · next h =>
    refine segLookup_append_last m k v ?_
    intro p hp
    simp only [List.any_eq_true, decide_eq_true_eq] at h
    exact fun hk => h ⟨p, hp, hk⟩

/-- Counterexample for C2: `seg_0` is stored with `isFinal = true` and word
`"a"`, yet a later interim patch for `seg_0` with word `"b"` is applied —
the stored word list and `isFinal` flag both change. -/
theorem final_segment_overwritten_cex :
    segLookup finalSegState.segments "seg_0"
        = some ⟨[⟨0, "a", none, none⟩], true⟩ ∧
    segLookup (processEvent finalSegState
        (TEvent.patchEv "sess_1" "seg_0" [⟨1, "b", none, none⟩] false)).segments "seg_0"
        = some ⟨[⟨1, "b", none, none⟩], false⟩ := by decide

/-- C2 (amended). A later `transcript_patch` for a segment already recorded
with `isFinal = true` is not rejected: the handler unconditionally
overwrites the stored entry with the incoming words and `isFinal` flag. -/
theorem final_segment_patch_applied (s : ClientState) (sid segId : String)
    (ws : List EventWord) (isF : Bool) (entry : SegEntry)
    (hmatch : s.activeSession = some sid)
    (hfound : segLookup s.segments segId = some entry)
    (hfinal : entry.isFinal = true) :
    segLookup (processEvent s (TEvent.patchEv sid segId ws isF)).segments segId
      = some ⟨ws, isF⟩ := by
  unfold processEvent
  rw [commitEffect_segments]
  simp only [handleEvent, hmatch, ne_eq, Option.some.injEq, not_true_eq_false,
    if_false]
  exact segLookup_setSeg_self s.segments segId ⟨ws, isF⟩

/-- Witness for C2 (amended) at a concrete state and event. -/
theorem final_segment_patch_applied_witness :
    (finalSegState.activeSession = some "sess_1" ∧
      segLookup finalSegState.segments "seg_0"
        = some ⟨[⟨0, "a", none, none⟩], true⟩ ∧
      (⟨[⟨0, "a", none, none⟩], true⟩ : SegEntry).isFinal = true) ∧
    segLookup (processEvent finalSegState
        (TEvent.patchEv "sess_1" "seg_0" [⟨1, "b", none, none⟩] true)).segments "seg_0"
      = some ⟨[⟨1, "b", none, none⟩], true⟩ :=
  ⟨⟨by decide, by decide, by decide⟩,
    final_segment_patch_applied finalSegState "sess_1" "seg_0"
      [⟨1, "b", none, none⟩] true ⟨[⟨0, "a", none, none⟩], true⟩
      (by decide) (by decide) (by decide)⟩

/-! ## Generic processEvent lemmas -/

theorem processEvent_activeSession (s : ClientState) (e : TEvent) :
    (processEvent s e).activeSession = s.activeSession := by
  unfold processEvent
  rw [commitEffect_activeSession]
  cases e <;> simp only [handleEvent] <;> split <;> rfl

theorem processEvent_words_patch (s : ClientState) (sid segId : String)
    (ws : List EventWord) (isF : Bool) (hmatch : s.activeSession = some sid) :
    (processEvent s (TEvent.patchEv sid segId ws isF)).words
      = mergeWords s.words ws isF := by
  unfold processEvent
  rw [commitEffect_words]
  simp only [handleEvent, hmatch, ne_eq, Option.some.injEq, not_true_eq_false,
    if_false]

theorem processEvent_segments_patch (s : ClientState) (sid segId : String)
    (ws : List EventWord) (isF : Bool) (hmatch : s.activeSession = some sid) :
    (processEvent s (TEvent.patchEv sid segId ws isF)).segments
      = setSeg s.segments segId ⟨ws, isF⟩ := by
  unfold processEvent
  rw [commitEffect_segments]
  simp only [handleEvent, hmatch, ne_eq, Option.some.injEq, not_true_eq_false,
    if_false]

theorem mergeWords_interim_eq (prev : List Word) (ws : List EventWord) :
    mergeWords prev ws false
      = prev.filter (fun w => w.isFinal || w.edited)
        ++ ws.map (fun w => toWord w false) := by
  unfold mergeWords
  rw [if_neg (by simp)]

theorem mergeWords_final_eq (prev : List Word) (ws : List EventWord) :
    mergeWords prev ws true
      = prev.filter (fun w => w.isFinal || w.edited)
        ++ (ws.filter (fun w =>
              !(((prev.filter (fun w => w.isFinal)).map (fun w => w.wid)).contains w.wid))).map
            (fun w => toWord w true) := by
  unfold mergeWords
  rw [if_pos rfl]

/-! ## C8: interim words are replaced wholesale, not accumulated -/

theorem filter_committed_eq_nil (l : List Word)
    (h : ∀ w ∈ l, w.isFinal = false ∧ w.edited = false) :
    l.filter (fun w => w.isFinal || w.edited) = [] := by
  refine List.filter_eq_nil_iff.mpr ?_
  intro w hw
  rcases h w hw with ⟨h1, h2⟩
  simp [h1, h2]

/-- C8. Starting from a state with no committed (final or edited) words,
delivering segment `S` as interim with one word list and then again as
interim with another leaves the flat word list equal to the second event's
words (marked interim) — interim words are replaced wholesale, never
accumulated. -/
theorem interim_replacement (s : ClientState) (sid segId : String)
    (ws1 ws2 : List EventWord)
    (hmatch : s.activeSession = some sid)
    (hnc : ∀ w ∈ s.words, w.isFinal = false ∧ w.edited = false) :
    (processEvent (processEvent s (TEvent.patchEv sid segId ws1 false))
        (TEvent.patchEv sid segId ws2 false)).words
      = ws2.map (fun w => toWord w false) := by
  have hm1 : (processEvent s (TEvent.patchEv sid segId ws1 false)).activeSession
      = some sid := by rw [processEvent_activeSession, hmatch]
  rw [processEvent_words_patch _ sid segId ws2 false hm1, mergeWords_interim_eq,
    processEvent_words_patch s sid segId ws1 false hmatch, mergeWords_interim_eq,
    filter_committed_eq_nil s.words hnc, List.nil_append]
  rw [filter_committed_eq_nil _ (by
    intro w hw
    rcases List.mem_map.mp hw with ⟨v, _, rfl⟩
    exact ⟨rfl, rfl⟩), List.nil_append]

/-- Witness for C8: interim `["hel"]` then interim `["hel", "lo"]` for the
same segment leaves exactly the two words of the second event. -/
theorem interim_replacement_witness :
    (finalSegState.activeSession = some "sess_1" ∧
      ∀ w ∈ ({ finalSegState with words := [] } : ClientState).words,
        w.isFinal = false ∧ w.edited = false) ∧
    (processEvent (processEvent ({ finalSegState with words := [] })
        (TEvent.patchEv "sess_1" "seg_1" [⟨1, "hel", none, none⟩] false))
        (TEvent.patchEv "sess_1" "seg_1"
          [⟨1, "hel", none, none⟩, ⟨2, "lo", none, none⟩] false)).words
      = [⟨1, "hel", none, none, false, false⟩, ⟨2, "lo", none, none, false, false⟩] :=
  ⟨⟨by decide, by decide⟩, by
    have h := interim_replacement ({ finalSegState with words := [] }) "sess_1" "seg_1"
      [⟨1, "hel", none, none⟩] [⟨1, "hel", none, none⟩, ⟨2, "lo", none, none⟩]
      (by decide) (by decide)
    simpa [toWord] using h⟩

/-! ## C7: duplicate delivery of a final patch -/

theorem setSeg_setSeg_same (m : Segments) (k : String) (v : SegEntry) :
    setSeg (setSeg m k v) k v = setSeg m k v := by
  have hf : ∀ p : String × SegEntry,
      (fun p => if p.1 = k then (k, v) else p)
        ((fun p => if p.1 = k then (k, v) else p) p)
      = (fun p => if p.1 = k then (k, v) else p) p := by
    intro p
    by_cases hp : p.1 = k <;> simp [hp]
  unfold setSeg
  by_cases h : m.any (fun p => decide (p.1 = k))
  · rw [if_pos h]
    have hany : (m.map (fun p => if p.1 = k then (k, v) else p)).any
        (fun p => decide (p.1 = k)) = true := by
      rcases List.any_eq_true.mp h with ⟨p, hp, hpk⟩
      refine List.any_eq_true.mpr ⟨(k, v), List.mem_map.mpr ⟨p, hp, ?_⟩, by simp⟩
      simp only [decide_eq_true_eq] at hpk
      simp [hpk]
    rw [if_pos hany, List.map_map]
    exact List.map_congr_left (fun p _ => hf p)
  · rw [if_neg h]
    have hany : (m ++ [(k, v)]).any (fun p => decide (p.1 = k)) = true := by
      refine List.any_eq_true.mpr ⟨(k, v), List.mem_append_right _ (by simp), by simp⟩
    rw [if_pos hany, List.map_append]
    have hm : m.map (fun p => if p.1 = k then (k, v) else p) = m := by
      conv_rhs => rw [← List.map_id m]
      refine List.map_congr_left (fun p hp => ?_)
      have : ¬(p.1 = k) := by
        intro hk
        exact h (List.any_eq_true.mpr ⟨p, hp, by simp [hk]⟩)
      simp [this]
    rw [hm]
    simp

theorem filter_or_self (l : List Word) :
    (l.filter (fun w => w.isFinal || w.edited)).filter (fun w => w.isFinal || w.edited)
      = l.filter (fun w => w.isFinal || w.edited) := by
  simp [List.filter_filter]

theorem filter_final_of_committed (l : List Word) :
    (l.filter (fun w => w.isFinal || w.edited)).filter (fun w => w.isFinal)
      = l.filter (fun w => w.isFinal) := by
  rw [List.filter_filter]
  refine List.filter_congr (fun w _ => ?_)
  cases hw : w.isFinal <;> simp [hw]

theorem newWords_all_final (ws : List EventWord) (p : EventWord → Bool) (w : Word)
    (hw : w ∈ (ws.filter p).map (fun w => toWord w true)) :
    w.isFinal = true ∧ w.edited = false := by
  rcases List.mem_map.mp hw with ⟨v, _, rfl⟩
  exact ⟨rfl, rfl⟩

theorem mergeWords_final_idem (prev : List Word) (ws : List EventWord) :
    mergeWords (mergeWords prev ws true) ws true = mergeWords prev ws true := by
  rw [mergeWords_final_eq, mergeWords_final_eq]
  have hNc : ((ws.filter (fun w =>
        !(((prev.filter (fun w => w.isFinal)).map (fun w => w.wid)).contains w.wid))).map
        (fun w => toWord w true)).filter (fun w => w.isFinal || w.edited)
      = (ws.filter (fun w =>
          !(((prev.filter (fun w => w.isFinal)).map (fun w => w.wid)).contains w.wid))).map
        (fun w => toWord w true) :=
    List.filter_eq_self.mpr (fun w hw => by
      rcases newWords_all_final ws _ w hw with ⟨h1, _⟩
      simp [h1])
  have hNf : ((ws.filter (fun w =>
        !(((prev.filter (fun w => w.isFinal)).map (fun w => w.wid)).contains w.wid))).map
        (fun w => toWord w true)).filter (fun w => w.isFinal)
      = (ws.filter (fun w =>
          !(((prev.filter (fun w => w.isFinal)).map (fun w => w.wid)).contains w.wid))).map
        (fun w => toWord w true) :=
    List.filter_eq_self.mpr (fun w hw => by
      rcases newWords_all_final ws _ w hw with ⟨h1, _⟩
      simp [h1])
  rw [List.filter_append, filter_or_self, hNc]
  rw [List.filter_append, filter_final_of_committed, hNf, List.map_append]
  have hnil : ws.filter (fun w =>
      !(((prev.filter (fun w => w.isFinal)).map (fun w => w.wid)
          ++ ((ws.filter (fun w =>
            !(((prev.filter (fun w => w.isFinal)).map (fun w => w.wid)).contains w.wid))).map
            (fun w => toWord w true)).map (fun w => w.wid)).contains w.wid)) = [] := by
    refine List.filter_eq_nil_iff.mpr (fun w hw => ?_)
    simp only [Bool.not_eq_true', Bool.not_eq_false]
    by_cases hc : ((prev.filter (fun w => w.isFinal)).map (fun w => w.wid)).contains w.wid
    · exact List.elem_iff.mpr (List.mem_append_left _ (List.elem_iff.mp hc))
    · refine List.elem_iff.mpr (List.mem_append_right _ ?_)
      refine List.mem_map.mpr ⟨toWord w true, ?_, rfl⟩
      refine List.mem_map.mpr ⟨w, ?_, rfl⟩
      refine List.mem_filter.mpr ⟨hw, ?_⟩
      simp only [Bool.not_eq_true']
      exact Bool.not_eq_true _ ▸ (by simpa using hc)
  rw [hnil]
  simp

theorem handleEvent_guard (s : ClientState) (e : TEvent)
    (h : some e.sessionId ≠ s.activeSession) : handleEvent s e = s := by
  cases e <;> simp only [handleEvent, TEvent.sessionId] at h ⊢ <;> rw [if_pos h]

theorem processEvent_patch_final_noop (s : ClientState) (sid segId : String)
    (ws : List EventWord) :
    processEvent (processEvent s (TEvent.patchEv sid segId ws true))
        (TEvent.patchEv sid segId ws true)
      = processEvent s (TEvent.patchEv sid segId ws true) := by
  by_cases hm : s.activeSession = some sid
  · have hm1 : (processEvent s (TEvent.patchEv sid segId ws true)).activeSession
        = some sid := by rw [processEvent_activeSession, hm]
    have hseg := processEvent_segments_patch s sid segId ws true hm
    have hwrd := processEvent_words_patch s sid segId ws true hm
    have hhandle : handleEvent (processEvent s (TEvent.patchEv sid segId ws true))
        (TEvent.patchEv sid segId ws true)
        = processEvent s (TEvent.patchEv sid segId ws true) := by
      simp only [handleEvent]
      rw [if_neg (by rw [hm1]; simp)]
      rw [hseg, hwrd, setSeg_setSeg_same, mergeWords_final_idem]
      rw [← hseg, ← hwrd]
    show commitEffect _ = _
    rw [hhandle]
    refine commitEffect_stable _ ?_
    show (commitEffect (handleEvent s (TEvent.patchEv sid segId ws true))).committedFinalText
      = buildCommittedTextFromSegments
          (commitEffect (handleEvent s (TEvent.patchEv sid segId ws true))).segments
    rw [commitEffect_committed, commitEffect_segments]
  · have hg : some (TEvent.patchEv sid segId ws true).sessionId ≠ s.activeSession := by
      simpa [TEvent.sessionId] using fun hx => hm hx.symm
    have h1 : processEvent s (TEvent.patchEv sid segId ws true) = commitEffect s := by
      unfold processEvent
      rw [handleEvent_guard s _ hg]
    have hg1 : some (TEvent.patchEv sid segId ws true).sessionId
        ≠ (commitEffect s).activeSession := by
      rw [commitEffect_activeSession]; exact hg
    rw [h1]
    unfold processEvent
    rw [handleEvent_guard _ _ hg1, commitEffect_idem]

/-- C7. Delivering the same final `transcript_patch` twice is a no-op the
second time: the whole client state — in particular the flat word list and
the CommittedText — equals its value after the first delivery, and (for an
event with distinct fresh word ids over a duplicate-free state) the word
list stays duplicate-free. -/
theorem final_patch_redelivery (s : ClientState) (sid segId : String)
    (ws : List EventWord)
    (hnd : (ws.map (fun w => w.wid)).Nodup)
    (hsnd : (s.words.map (fun w => w.wid)).Nodup)
    (hdisj : ∀ w ∈ ws, ∀ v ∈ s.words, w.wid ≠ v.wid) :
    processEvent (processEvent s (TEvent.patchEv sid segId ws true))
        (TEvent.patchEv sid segId ws true)
      = processEvent s (TEvent.patchEv sid segId ws true) ∧
    ((processEvent (processEvent s (TEvent.patchEv sid segId ws true))
        (TEvent.patchEv sid segId ws true)).words.map (fun w => w.wid)).Nodup ∧
    (processEvent (processEvent s (TEvent.patchEv sid segId ws true))
        (TEvent.patchEv sid segId ws true)).committedFinalText
      = (processEvent s (TEvent.patchEv sid segId ws true)).committedFinalText := by
  have hnoop := processEvent_patch_final_noop s sid segId ws
  refine ⟨hnoop, ?_, by rw [hnoop]⟩
  rw [hnoop]
  by_cases hm : s.activeSession = some sid
  · rw [processEvent_words_patch s sid segId ws true hm, mergeWords_final_eq,
      List.map_append]
    have hCsub : ((s.words.filter (fun w => w.isFinal || w.edited)).map
        (fun w => w.wid)).Sublist (s.words.map (fun w => w.wid)) :=
      (List.filter_sublist _).map _
    have hmapN : ((ws.filter (fun w =>
        !(((s.words.filter (fun w => w.isFinal)).map (fun w => w.wid)).contains w.wid))).map
        (fun w => toWord w true)).map (fun w => w.wid)
        = (ws.filter (fun w =>
          !(((s.words.filter (fun w => w.isFinal)).map (fun w => w.wid)).contains w.wid))).map
          (fun w => w.wid) := by
      rw [List.map_map]; rfl
    rw [hmapN]
    have hNsub : ((ws.filter (fun w =>
        !(((s.words.filter (fun w => w.isFinal)).map (fun w => w.wid)).contains w.wid))).map
        (fun w => w.wid)).Sublist (ws.map (fun w => w.wid)) :=
      (List.filter_sublist _).map _
    refine List.Nodup.append (hsnd.sublist hCsub) (hnd.sublist hNsub) ?_
    rw [List.disjoint_left]
    rintro a ha ha'
    rcases List.mem_map.mp ha with ⟨v, hv, rfl⟩
    rcases List.mem_map.mp ha' with ⟨w, hw, hww⟩
    exact hdisj w (List.mem_of_mem_filter hw) v (List.mem_of_mem_filter hv) hww
  · have hg : some (TEvent.patchEv sid segId ws true).sessionId ≠ s.activeSession := by
      simpa [TEvent.sessionId] using fun hx => hm hx.symm
    unfold processEvent
    rw [handleEvent_guard s _ hg, commitEffect_words]
    exact hsnd

/-- Witness for C7 at a concrete state and a concrete final patch. -/
theorem final_patch_redelivery_witness :
    ((([⟨1, "b", none, none⟩] : List EventWord).map (fun w => w.wid)).Nodup ∧
      (finalSegState.words.map (fun w => w.wid)).Nodup ∧
      ∀ w ∈ ([⟨1, "b", none, none⟩] : List EventWord),
        ∀ v ∈ finalSegState.words, w.wid ≠ v.wid) ∧
    processEvent (processEvent finalSegState
        (TEvent.patchEv "sess_1" "seg_1" [⟨1, "b", none, none⟩] true))
        (TEvent.patchEv "sess_1" "seg_1" [⟨1, "b", none, none⟩] true)
      = processEvent finalSegState
        (TEvent.patchEv "sess_1" "seg_1" [⟨1, "b", none, none⟩] true) ∧
    ((processEvent (processEvent finalSegState
        (TEvent.patchEv "sess_1" "seg_1" [⟨1, "b", none, none⟩] true))
        (TEvent.patchEv "sess_1" "seg_1" [⟨1, "b", none, none⟩] true)).words.map
        (fun w => w.wid)).Nodup :=
  ⟨⟨by decide, by decide, by decide⟩,
    (final_patch_redelivery finalSegState "sess_1" "seg_1" [⟨1, "b", none, none⟩]
      (by decide) (by decide) (by decide)).1,
    (final_patch_redelivery finalSegState "sess_1" "seg_1" [⟨1, "b", none, none⟩]
      (by decide) (by decide) (by decide)).2.1⟩

/-! ## C6: normalization distributes over clean append points -/

theorem normAux_cons_ws (run : List Char) (c : Char) (rest : List Char)
    (h : jsWsChar c = true) :
    normAux run (c :: rest) = normAux (run ++ [c]) rest := by
  unfold normAux
  rw [if_pos h]
  cases rest <;> rfl

theorem normAux_cons_punct (run : List Char) (c : Char) (rest : List Char)
    (h1 : jsWsChar c = false) (h2 : punctChar c = true) :
    normAux run (c :: rest) = c :: normAux [] rest := by
  unfold normAux
  rw [if_neg (by simp [h1]), if_pos h2]
  cases rest <;> rfl

theorem normAux_cons_other (run : List Char) (c : Char) (rest : List Char)
    (h1 : jsWsChar c = false) (h2 : punctChar c = false) :
    normAux run (c :: rest) = run ++ c :: normAux [] rest := by
  unfold normAux
  rw [if_neg (by simp [h1]), if_neg (by simp [h2])]
  cases rest <;> rfl

theorem normAux_append (s : List Char) :
    ∀ (run t : List Char), s ≠ [] →
      (∀ c, s.getLast? = some c → jsWsChar c = false) →
      normAux run (s ++ t) = normAux run s ++ normAux [] t := by
  induction s with
  | nil => intro run t h _; exact absurd rfl h
  | cons c s' ih =>
    intro run t _ hlast
    cases s' with
    | nil =>
      have hc : jsWsChar c = false := hlast c rfl
      by_cases hp : punctChar c
      · simp [normAux, hc, hp]
      · simp [normAux, hc, hp]
    | cons d s'' =>
      have hlast' : ∀ e, (d :: s'').getLast? = some e → jsWsChar e = false := by
        intro e he
        exact hlast e (by rwa [List.getLast?_cons_cons])
      by_cases hw : jsWsChar c
      · rw [List.cons_append, normAux_cons_ws _ _ _ hw, normAux_cons_ws _ _ _ hw]
        exact ih (run ++ [c]) t (by simp) hlast'
      · have hw' : jsWsChar c = false := by simpa using hw
        by_cases hp : punctChar c
        · rw [List.cons_append, normAux_cons_punct _ _ _ hw' hp,
            normAux_cons_punct _ _ _ hw' hp]
          rw [ih [] t (by simp) hlast', List.cons_append]
        · have hp' : punctChar c = false := by simpa using hp
          rw [List.cons_append, normAux_cons_other _ _ _ hw' hp',
            normAux_cons_other _ _ _ hw' hp']
          rw [ih [] t (by simp) hlast']
          simp

theorem normPunct_append (s t : String) (hne : s ≠ "") (h : EndsNonWs s) :
    normPunct (s ++ t) = normPunct s ++ normPunct t := by
  apply String.ext
  show normAux [] (s.data ++ t.data) = normChars s.data ++ normChars t.data
  have hsd : s.data ≠ [] := fun hd => hne (String.ext (by simp [hd]))
  exact normAux_append s.data [] t.data hsd h

theorem goodString_append_endsNonWs (x y : String) (hy : y ≠ "")
    (h : EndsNonWs y) : EndsNonWs (x ++ y) := by
  intro c hc
  apply h
  have hyd : y.data ≠ [] := fun hd => hy (String.ext (by simp [hd]))
  rwa [show (x ++ y).data = x.data ++ y.data from rfl,
    List.getLast?_append_of_ne_nil x.data hyd] at hc

theorem append_ne_empty_right (x y : String) (hy : y ≠ "") : x ++ y ≠ "" := by
  intro hxy
  apply hy
  apply String.ext
  have h2 : x.data ++ y.data = ([] : List Char) := congrArg String.data hxy
  exact (List.append_eq_nil.mp h2).2

theorem joinSpace_good (l : List String) (hne : l ≠ [])
    (h : ∀ x ∈ l, x ≠ "" ∧ ∀ c ∈ x.data, jsWsChar c = false) :
    joinSpace l ≠ "" ∧ EndsNonWs (joinSpace l) := by
  induction l with
  | nil => exact absurd rfl hne
  | cons a rest ih =>
    cases rest with
    | nil =>
      have ha := h a (List.mem_cons_self a [])
      refine ⟨ha.1, fun c hc => ha.2 c (List.mem_of_mem_getLast? hc)⟩
    | cons b rest' =>
      have hj := ih (List.cons_ne_nil b rest')
        (fun x hx => h x (List.mem_cons_of_mem a hx))
      have heq : joinSpace (a :: b :: rest') = (a ++ " ") ++ joinSpace (b :: rest') := by
        show joinSep " " (a :: b :: rest') = _
        rfl
      rw [heq]
      exact ⟨append_ne_empty_right _ _ hj.1,
        goodString_append_endsNonWs _ _ hj.1 hj.2⟩

theorem accumSeg_good (text st : String) (hst : st ≠ "" ∧ EndsNonWs st) :
    accumSeg text st ≠ "" ∧ EndsNonWs (accumSeg text st) := by
  unfold accumSeg
  constructor
  · exact append_ne_empty_right _ _ hst.1
  · exact goodString_append_endsNonWs _ _ hst.1 hst.2

theorem insSorted_append_last (le : α → α → Bool) (y x : α) (s : List α)
    (h : le y x = true) :
    insSorted le y (s ++ [x]) = insSorted le y s ++ [x] := by
  induction s with
  | nil => simp [insSorted, h]
  | cons z s' ih =>
    show insSorted le y (z :: (s' ++ [x])) = insSorted le y (z :: s') ++ [x]
    unfold insSorted
    by_cases hz : le y z
    · rw [if_pos hz, if_pos hz]
      simp
    · rw [if_neg hz, if_neg hz, ih]
      simp

theorem sortJS_append_last (le : α → α → Bool) (l : List α) (x : α)
    (h : ∀ y ∈ l, le y x = true) :
    sortJS le (l ++ [x]) = sortJS le l ++ [x] := by
  induction l with
  | nil => simp [sortJS, insSorted]
  | cons y l' ih =>
    show insSorted le y (sortJS le (l' ++ [x])) = insSorted le y (sortJS le l') ++ [x]
    rw [ih (fun z hz => h z (List.mem_cons_of_mem y hz)),
      insSorted_append_last le y x _ (h y (List.mem_cons_self y l'))]

theorem mem_insSorted (le : α → α → Bool) (x : α) (s : List α) (a : α)
    (h : a ∈ insSorted le x s) : a = x ∨ a ∈ s := by
  induction s with
  | nil => simpa [insSorted] using h
  | cons z s' ih =>
    by_cases hz : le x z
    · simp only [insSorted, hz, if_pos] at h
      simpa using h
    · simp only [insSorted, hz, Bool.false_eq_true, if_false, List.mem_cons] at h
      rcases h with h | h
      · exact Or.inr (h ▸ List.mem_cons_self z s')
      · rcases ih h with h' | h'
        · exact Or.inl h'
        · exact Or.inr (List.mem_cons_of_mem z h')

theorem mem_sortJS (le : α → α → Bool) (l : List α) (a : α)
    (h : a ∈ sortJS le l) : a ∈ l := by
  induction l with
  | nil => simpa [sortJS] using h
  | cons x l' ih =>
    rcases mem_insSorted le x (sortJS le l') a h with h' | h'
    · exact h' ▸ List.mem_cons_self x l'
    · exact List.mem_cons_of_mem x (ih h')

theorem segLookup_append_left (m m₂ : Segments) (id : String) (e : SegEntry)
    (h : segLookup m id = some e) : segLookup (m ++ m₂) id = some e := by
  induction m with
  | nil => simp [segLookup] at h
  | cons p rest ih =>
    by_cases hp : p.1 = id
    · simpa [segLookup, hp] using h
    · simp only [segLookup, hp, if_false] at h
      show segLookup (p :: (rest ++ m₂)) id = some e
      simp only [segLookup, hp, if_false]
      exact ih h

theorem segLookup_some_of_mem_keys (m : Segments) (id : String)
    (h : id ∈ m.map (fun p => p.1)) : ∃ e, segLookup m id = some e := by
  induction m with
  | nil => simp at h
  | cons p rest ih =>
    by_cases hp : p.1 = id
    · exact ⟨p.2, by simp [segLookup, hp]⟩
    · have : id ∈ rest.map (fun p => p.1) := by
        rcases List.mem_map.mp h with ⟨q, hq, hq1⟩
        rcases List.mem_cons.mp hq with rfl | hq'
        · exact absurd hq1 hp
        · exact List.mem_map.mpr ⟨q, hq', hq1⟩
      rcases ih this with ⟨e, he⟩
      exact ⟨e, by simpa [segLookup, hp] using he⟩

theorem segLookup_entry_mem (m : Segments) (id : String) (e : SegEntry)
    (h : segLookup m id = some e) : ∃ p ∈ m, p.1 = id ∧ p.2 = e := by
  induction m with
  | nil => simp [segLookup] at h
  | cons p rest ih =>
    by_cases hp : p.1 = id
    · simp only [segLookup, hp, if_pos, Option.some.injEq] at h
      exact ⟨p, List.mem_cons_self p rest, hp, h⟩
    · simp only [segLookup, hp, if_false] at h
      rcases ih h with ⟨q, hq, hq1, hq2⟩
      exact ⟨q, List.mem_cons_of_mem p hq, hq1, hq2⟩

theorem segLookup_none_of_fresh (m : Segments) (k : String)
    (h : ∀ p ∈ m, p.1 ≠ k) : segLookup m k = none := by
  induction m with
  | nil => rfl
  | cons p rest ih =>
    have hp : p.1 ≠ k := h p (List.mem_cons_self p rest)
    simpa [segLookup, hp] using ih (fun q hq => h q (List.mem_cons_of_mem p hq))

theorem segLookup_append_right (m m₂ : Segments) (k : String)
    (h : segLookup m k = none) : segLookup (m ++ m₂) k = segLookup m₂ k := by
  induction m with
  | nil => rfl
  | cons p rest ih =>
    by_cases hp : p.1 = k
    · simp [segLookup, hp] at h
    · simp only [segLookup, hp, if_false] at h
      show segLookup (p :: (rest ++ m₂)) k = segLookup m₂ k
      simp only [segLookup, hp, if_false]
      exact ih h

theorem setSeg_fresh (m : Segments) (k : String) (v : SegEntry)
    (h : ∀ p ∈ m, p.1 ≠ k) : setSeg m k v = m ++ [(k, v)] := by
  unfold setSeg
  rw [if_neg]
  intro hany
  rcases List.any_eq_true.mp hany with ⟨p, hp, hpk⟩
  exact h p hp (by simpa using hpk)

theorem rawStep_none (m : Segments) (acc : String) (id : String)
    (h : segLookup m id = none) : rawStep m acc id = acc := by
  unfold rawStep
  rw [h]

theorem rawStep_final (m : Segments) (acc : String) (id : String) (e : SegEntry)
    (h : segLookup m id = some e) (hf : e.isFinal = true) :
    rawStep m acc id = accumSeg acc (joinSpace (e.words.map (fun w => w.text))) := by
  unfold rawStep
  simp only [h]
  rw [if_pos hf]

theorem rawStep_interim (m : Segments) (acc : String) (id : String) (e : SegEntry)
    (h : segLookup m id = some e) (hf : e.isFinal = false) :
    rawStep m acc id = acc := by
  unfold rawStep
  simp only [h]
  rw [if_neg (by simp [hf])]

theorem rawFold_congr (m m' : Segments) (ids : List String)
    (h : ∀ id ∈ ids, segLookup m' id = segLookup m id) :
    ∀ acc, ids.foldl (rawStep m') acc = ids.foldl (rawStep m) acc := by
  induction ids with
  | nil => intro acc; rfl
  | cons id ids' ih =>
    intro acc
    have hstep : rawStep m' acc id = rawStep m acc id := by
      unfold rawStep
      rw [h id (List.mem_cons_self id ids')]
    show (ids').foldl (rawStep m') (rawStep m' acc id) = _
    rw [hstep]
    exact ih (fun i hi => h i (List.mem_cons_of_mem id hi)) _

theorem rawFold_invariant (m : Segments) (ids : List String)
    (hgood : ∀ id ∈ ids, ∀ e, segLookup m id = some e → e.isFinal = true → GoodSeg e) :
    ∀ acc, (acc = "" ∨ (acc ≠ "" ∧ EndsNonWs acc)) →
      (ids.foldl (rawStep m) acc = "" ∨
        (ids.foldl (rawStep m) acc ≠ "" ∧ EndsNonWs (ids.foldl (rawStep m) acc))) := by
  induction ids with
  | nil => intro acc hacc; exact hacc
  | cons id ids' ih =>
    intro acc hacc
    show (ids'.foldl (rawStep m) (rawStep m acc id) = "" ∨ _)
    refine ih (fun i hi => hgood i (List.mem_cons_of_mem id hi)) _ ?_
    cases hlook : segLookup m id with
    | none => rw [rawStep_none m acc id hlook]; exact hacc
    | some e =>
      by_cases hf : e.isFinal = true
      · rw [rawStep_final m acc id e hlook hf]
        have hge := hgood id (List.mem_cons_self id ids') e hlook hf
        have hst : joinSpace (e.words.map (fun w => w.text)) ≠ "" ∧
            EndsNonWs (joinSpace (e.words.map (fun w => w.text))) := by
          refine joinSpace_good _ (by simpa using hge.1) ?_
          intro x hx
          rcases List.mem_map.mp hx with ⟨w, hw, rfl⟩
          exact hge.2 w hw
        exact Or.inr (accumSeg_good acc _ hst)
      · rw [rawStep_interim m acc id e hlook (by simpa using hf)]
        exact hacc

/-- C6 (amended). Forward-moving final segments with clean words extend the
CommittedText: inserting a new final segment whose numeric id suffix is
strictly greater than every existing one, whose word list is nonempty and
whose word texts are nonempty and whitespace-free (and over a map whose
existing final segments satisfy the same), yields a CommittedText of which
the previous CommittedText is a prefix, punctuation normalization
included. -/
theorem forward_final_segment_extends (m : Segments) (k : String)
    (ws : List EventWord)
    (horder : ∀ p ∈ m, ∃ a b, segKeyPop p.1 = some a ∧ segKeyPop k = some b ∧ a < b)
    (hgood : ∀ p ∈ m, p.2.isFinal = true → GoodSeg p.2)
    (hws : ws ≠ [] ∧ ∀ w ∈ ws, GoodWord w) :
    ∃ t : String, buildCommittedTextFromSegments (setSeg m k ⟨ws, true⟩)
      = buildCommittedTextFromSegments m ++ t := by
  have hfresh : ∀ p ∈ m, p.1 ≠ k := by
    intro p hp hk
    rcases horder p hp with ⟨a, b, ha, hb, hab⟩
    rw [hk] at ha
    rw [ha] at hb
    have := Option.some.inj hb
    omega
  rw [setSeg_fresh m k ⟨ws, true⟩ hfresh]
  have hle : ∀ y ∈ m.map (fun p => p.1), segLEPop y k = true := by
    intro y hy
    rcases List.mem_map.mp hy with ⟨p, hp, rfl⟩
    rcases horder p hp with ⟨a, b, ha, hb, hab⟩
    simp only [segLEPop, ha, hb, keyLE]
    exact decide_eq_true (le_of_lt hab)
  have hkeys : ((m ++ [(k, (⟨ws, true⟩ : SegEntry))]).map (fun p => p.1))
      = m.map (fun p => p.1) ++ [k] := by simp
  have hlookup : ∀ id ∈ sortJS segLEPop (m.map (fun p => p.1)),
      segLookup (m ++ [(k, (⟨ws, true⟩ : SegEntry))]) id = segLookup m id := by
    intro id hid
    rcases segLookup_some_of_mem_keys m id (mem_sortJS _ _ _ hid) with ⟨e, he⟩
    rw [he, segLookup_append_left m _ id e he]
  have hlookk : segLookup (m ++ [(k, (⟨ws, true⟩ : SegEntry))]) k
      = some ⟨ws, true⟩ := by
    rw [segLookup_append_right m _ k (segLookup_none_of_fresh m k hfresh)]
    simp [segLookup]
  unfold buildCommittedTextFromSegments rawCommitted
  rw [hkeys, sortJS_append_last segLEPop _ k hle]
  simp only [List.foldl_append, List.foldl_cons, List.foldl_nil]
  rw [rawFold_congr m _ _ hlookup]
  rw [rawStep_final _ _ k ⟨ws, true⟩ hlookk rfl]
  have hst : joinSpace (ws.map (fun w => w.text)) ≠ "" ∧
      EndsNonWs (joinSpace (ws.map (fun w => w.text))) := by
    refine joinSpace_good _ (by simpa using hws.1) ?_
    intro x hx
    rcases List.mem_map.mp hx with ⟨w, hw, rfl⟩
    exact hws.2 w hw
  have hR := rawFold_invariant m (sortJS segLEPop (m.map (fun p => p.1)))
    (by
      intro id hid e he hf
      rcases segLookup_entry_mem m id e he with ⟨p, hp, _, hpe⟩
      exact hpe ▸ hgood p hp (hpe ▸ hf)) "" (Or.inl rfl)
  rcases hR with hR0 | ⟨hRne, hRends⟩
  · rw [hR0]
    refine ⟨normPunct (joinSpace (ws.map (fun w => w.text))), ?_⟩
    have h1 : accumSeg "" (joinSpace (ws.map (fun w => w.text)))
        = joinSpace (ws.map (fun w => w.text)) := by
      unfold accumSeg
      rw [if_pos rfl]
      apply String.ext
      rfl
    rw [h1]
    apply String.ext
    show normChars _ = ([] : List Char) ++ normChars _
    rw [List.nil_append]
  · refine ⟨normPunct (" " ++ joinSpace (ws.map (fun w => w.text))), ?_⟩
    have h1 : accumSeg (List.foldl (rawStep m) ""
          (sortJS segLEPop (m.map (fun p => p.1))))
          (joinSpace (ws.map (fun w => w.text)))
        = (List.foldl (rawStep m) "" (sortJS segLEPop (m.map (fun p => p.1))))
          ++ (" " ++ joinSpace (ws.map (fun w => w.text))) := by
      unfold accumSeg
      rw [if_neg hRne, String.append_assoc]
    rw [h1]
    exact normPunct_append _ _ hRne hRends

/-- Counterexample for C6 as stated: two forward-moving final segments
(numeric suffixes 0 < 1) whose successive CommittedTexts are `"a "` and
`"a,"` — the earlier value is not a prefix of the later one, because the
punctuation normalization deletes the trailing space (produced by an
empty word text) once the `","` segment arrives. -/
theorem forward_final_prefix_cex :
    buildCommittedTextFromSegments
        (setSeg [] "seg_0" ⟨[⟨0, "a", none, none⟩, ⟨1, "", none, none⟩], true⟩)
      = "a " ∧
    buildCommittedTextFromSegments
        (setSeg (setSeg [] "seg_0" ⟨[⟨0, "a", none, none⟩, ⟨1, "", none, none⟩], true⟩)
          "seg_1" ⟨[⟨2, ",", none, none⟩], true⟩)
      = "a," ∧
    segKeyPop "seg_0" = some 0 ∧
    segKeyPop "seg_1" = some 1 ∧
    (buildCommittedTextFromSegments
        (setSeg [] "seg_0" ⟨[⟨0, "a", none, none⟩, ⟨1, "", none, none⟩], true⟩)).data.isPrefixOf
      (buildCommittedTextFromSegments
        (setSeg (setSeg [] "seg_0" ⟨[⟨0, "a", none, none⟩, ⟨1, "", none, none⟩], true⟩)
          "seg_1" ⟨[⟨2, ",", none, none⟩], true⟩)).data = false := by decide

/-- Witness for C6 (amended) at a concrete map: `seg_0` final `"hello"`,
then the new final segment `seg_1` `"there"`. -/
theorem forward_final_segment_extends_witness :
    ((∀ p ∈ ([("seg_0", (⟨[⟨0, "hello", none, none⟩], true⟩ : SegEntry))] : Segments),
        ∃ a b, segKeyPop p.1 = some a ∧ segKeyPop "seg_1" = some b ∧ a < b) ∧
      (∀ p ∈ ([("seg_0", (⟨[⟨0, "hello", none, none⟩], true⟩ : SegEntry))] : Segments),
        p.2.isFinal = true → GoodSeg p.2) ∧
      (([⟨1, "there", none, none⟩] : List EventWord) ≠ [] ∧
        ∀ w ∈ ([⟨1, "there", none, none⟩] : List EventWord), GoodWord w)) ∧
    ∃ t : String,
      buildCommittedTextFromSegments
          (setSeg [("seg_0", ⟨[⟨0, "hello", none, none⟩], true⟩)] "seg_1"
            ⟨[⟨1, "there", none, none⟩], true⟩)
        = buildCommittedTextFromSegments
            [("seg_0", ⟨[⟨0, "hello", none, none⟩], true⟩)] ++ t :=
  ⟨⟨by
      intro p hp
      rcases List.mem_singleton.mp hp with rfl
      exact ⟨0, 1, by decide, by decide, by decide⟩,
    by decide, by decide, by decide⟩,
    forward_final_segment_extends [("seg_0", ⟨[⟨0, "hello", none, none⟩], true⟩)]
      "seg_1" [⟨1, "there", none, none⟩]
      (by
        intro p hp
        rcases List.mem_singleton.mp hp with rfl
        exact ⟨0, 1, by decide, by decide, by decide⟩)
      (by decide) ⟨by decide, by decide⟩⟩
